import Mathlib

/-! # Verification of `internal/utils.go` and the `bitcaskd` command handler

Shallow embedding of the Go code:

* a Go `string` / `[]byte` is a list of bytes (`List UInt8`);
* `uint64` values are natural numbers reduced modulo `2 ^ 64` after every
  operation that can overflow, `int64` values are integers wrapped into
  `[-2 ^ 63, 2 ^ 63)`;
* a Go function returning `(value, error)` returns a pair whose second
  component is `none` for a `nil` error; a `nil` slice is the empty list.

Path handling follows `path/filepath` on a Unix system (separator `/`, no
volume names).
-/

namespace Bitcask

/-- A Go string: an immutable sequence of bytes. -/
abbrev GoString := List UInt8

/-- UTF-8 bytes of a string literal, as the Go compiler stores it. -/
def utf8 (s : String) : GoString := s.toList.flatMap String.utf8EncodeChar

/-! ## `Hash` -/

/-- The constant `offset64` of `internal/utils.go`. -/
def offset64 : Nat := 14695981039346656037

/-- The constant `prime64` of `internal/utils.go`. -/
def prime64 : Nat := 1099511628211

/-- The body of the `for _, c := range key` loop of `Hash`, on the running
value `s`: `s ^= uint64(c)` then `s *= prime64` on 64 bits. -/
def HashLoop : List UInt8 → Nat → Nat
  | [], s => s
  | c :: rest, s => HashLoop rest (((s ^^^ c.toNat) * prime64) % 2 ^ 64)

/-- The function `Hash(key []byte) uint64`. -/
def Hash (key : List UInt8) : Nat := HashLoop key offset64

/-! ## `strconv.ParseInt` (Go standard library), as called with base 10 -/

/-- The `Err` field of a `*strconv.NumError`. -/
inductive NumError where
  | ErrSyntax
  | ErrRange
  | ErrBitSize
  deriving DecidableEq

/-- The helper `lower(c)` of package strconv: `c | ('x' - 'X')`. -/
def lower (c : UInt8) : Nat := c.toNat ||| 32

/-- The constant `maxUint64/10 + 1` used by `ParseUint` for base 10. -/
def cutoff10 : Nat := (2 ^ 64 - 1) / 10 + 1

/-- The digit loop of `strconv.ParseUint` for base 10 (`base0` is false, so an
underscore is an ordinary invalid byte); `n` is the running `uint64`. -/
def ParseUintLoop (maxVal : Nat) : List UInt8 → Nat → Nat × Option NumError
  | [], n => (n, none)
  | c :: cs, n =>
    let digit : Option Nat :=
      if 48 ≤ c.toNat ∧ c.toNat ≤ 57 then some (c.toNat - 48)
      else if 97 ≤ lower c ∧ lower c ≤ 122 then some (lower c - 97 + 10)
      else none
    match digit with
    | none => (0, some NumError.ErrSyntax)
    | some d =>
      if d ≥ 10 then (0, some NumError.ErrSyntax)
      else if n ≥ cutoff10 then (maxVal, some NumError.ErrRange)
      else
        let n10 := (n * 10) % 2 ^ 64
        let n1 := (n10 + d) % 2 ^ 64
        if n1 < n10 ∨ n1 > maxVal then (maxVal, some NumError.ErrRange)
        else ParseUintLoop maxVal cs n1

/-- The function `strconv.ParseUint(s, 10, bitSize)`. -/
def ParseUint (s : GoString) (bitSize : Nat) : Nat × Option NumError :=
  if s = [] then (0, some NumError.ErrSyntax)
  else
    let bitSize := if bitSize = 0 then 64 else bitSize
    if bitSize > 64 then (0, some NumError.ErrBitSize)
    else ParseUintLoop (2 ^ bitSize - 1) s 0

/-- The function `strconv.ParseInt(s, 10, bitSize)`. -/
def ParseInt (s : GoString) (bitSize : Nat) : Int × Option NumError :=
  match s with
  | [] => (0, some NumError.ErrSyntax)
  | c :: cs =>
    let neg := decide (c.toNat = 45)
    let s1 := if c.toNat = 43 then cs else if c.toNat = 45 then cs else c :: cs
    match ParseUint s1 bitSize with
    | (_, some NumError.ErrSyntax) => (0, some NumError.ErrSyntax)
    | (_, some NumError.ErrBitSize) => (0, some NumError.ErrBitSize)
    | (un, _) =>
      let bitSize := if bitSize = 0 then 64 else bitSize
      let cutoff := 2 ^ (bitSize - 1)
      if neg = false ∧ un ≥ cutoff then ((cutoff : Int) - 1, some NumError.ErrRange)
      else if neg = true ∧ un > cutoff then (-(cutoff : Int), some NumError.ErrRange)
      else (if neg then -(un : Int) else (un : Int), none)

/-! ## `path/filepath` and `strings` (Go standard library, Unix) -/

/-- The first loop of `filepath.Base`: strip trailing slashes. -/
def stripTrailingSlashes (path : GoString) : GoString :=
  (path.reverse.dropWhile (fun c => c.toNat = 47)).reverse

/-- The second loop of `filepath.Base`: what follows the last slash, or the
whole path when it has none. -/
def lastElement (path : GoString) : GoString :=
  (path.reverse.takeWhile (fun c => ¬ c.toNat = 47)).reverse

/-- The function `filepath.Base(path)`. -/
def Base (path : GoString) : GoString :=
  if path = [] then utf8 "."
  else
    let path := lastElement (stripTrailingSlashes path)
    if path = [] then utf8 "/" else path

/-- The loop of `filepath.Ext`, walking down from the last byte; `rev` holds
the bytes not yet visited in reverse order and `acc` the bytes already passed. -/
def ExtLoop : List UInt8 → GoString → GoString
  | [], _ => []
  | c :: rev, acc =>
    if c.toNat = 47 then []
    else if c.toNat = 46 then c :: acc
    else ExtLoop rev (c :: acc)

/-- The function `filepath.Ext(path)`. -/
def Ext (path : GoString) : GoString := ExtLoop path.reverse []

/-- The function `strings.HasSuffix(s, suffix)`. -/
def HasSuffix (s suffix : GoString) : Bool :=
  decide (suffix.length ≤ s.length) && decide (s.drop (s.length - suffix.length) = suffix)

/-- The function `strings.TrimSuffix(s, suffix)`. -/
def TrimSuffix (s suffix : GoString) : GoString :=
  if HasSuffix s suffix then s.take (s.length - suffix.length) else s

/-! ## `sort` (Go standard library) -/

/-- The function `sort.Ints`: the ascending rearrangement of the slice. -/
def sortInts (ids : List Int) : List Int := ids.insertionSort (fun a b => a ≤ b)

/-- Go's `<` on strings: byte-wise lexicographic order. -/
def strLess : GoString → GoString → Bool
  | _, [] => false
  | [], _ :: _ => true
  | a :: as, b :: bs =>
    decide (a.toNat < b.toNat) || (decide (a.toNat = b.toNat) && strLess as bs)

/-- The function `sort.Strings`: the rearrangement in which no element is
`<` an earlier one. -/
def sortStrings (fns : List GoString) : List GoString :=
  fns.insertionSort (fun a b => strLess b a = false)

/-! ## `ParseIds` and `GetDatafiles` -/

/-- The string literal `".data"`. -/
def dataExt : GoString := utf8 ".data"

/-- The loop of `ParseIds` with the slice `ids` built so far, followed by the
final `sort.Ints(ids); return ids, nil`. -/
def ParseIdsLoop : List GoString → List Int → List Int × Option NumError
  | [], ids => (sortInts ids, none)
  | fn :: rest, ids =>
    let fn := Base fn
    let ext := Ext fn
    if ext ≠ dataExt then ParseIdsLoop rest ids
    else
      match ParseInt (TrimSuffix fn ext) 32 with
      | (_, some err) => ([], some err)
      | (id, none) => ParseIdsLoop rest (ids ++ [id])

/-- The function `ParseIds(fns []string) ([]int, error)`. -/
def ParseIds (fns : List GoString) : List Int × Option NumError :=
  ParseIdsLoop fns []

/-- An `error` value, identified by its message. -/
structure GoError where
  msg : GoString
  deriving DecidableEq

/-- The function `GetDatafiles`, given what `filepath.Glob(path + "/*.data")`
returns for the directory. -/
def GetDatafiles (glob : List GoString × Option GoError) : List GoString × Option GoError :=
  match glob with
  | (_, some err) => ([], some err)
  | (fns, none) => (sortStrings fns, none)

/-! ## `DirSize` -/

/-- What `os.FileInfo` gives for one entry. -/
structure FileInfo where
  name : GoString
  isDir : Bool
  size : Int

/-- One call of the walk function by `filepath.Walk`: its `info` and `err`
arguments (`info` is only meaningful when `err` is `nil`). -/
structure WalkCall where
  info : FileInfo
  err : Option GoError

/-- Wrap-around of a sum into `int64`. -/
def wrapInt64 (x : Int) : Int := (x + 2 ^ 63) % 2 ^ 64 - 2 ^ 63

/-- The closure passed to `filepath.Walk` by `DirSize`, on the captured
variable `size`. -/
def walkFn (size : Int) (v : WalkCall) : Int × Option GoError :=
  match v.err with
  | some err => (size, some err)
  | none =>
    let size := if ¬ v.info.isDir then wrapInt64 (size + v.info.size) else size
    (size, none)

/-- The function `filepath.Walk` over the sequence of entries it visits: it
stops at the first call of the walk function that returns an error. -/
def Walk : List WalkCall → Int → Int × Option GoError
  | [], size => (size, none)
  | v :: rest, size =>
    match walkFn size v with
    | (size, some err) => (size, some err)
    | (size, none) => Walk rest size

/-- The function `DirSize(path) (int64, error)`, given the calls that
`filepath.Walk` makes for `path`. -/
def DirSize (tree : List WalkCall) : Int × Option GoError := Walk tree 0

/-! ## The command handler of `bitcaskd` -/

/-- What the handler does, in order: writes to the connection and calls of
the engine. -/
inductive Event where
  | WriteString (s : GoString)
  | WriteError (s : GoString)
  | WriteNull
  | WriteBulk (b : GoString)
  | WriteInt (n : Int)
  | WriteArray (n : Int)
  | Close
  | Put (key value : GoString)
  | Get (key : GoString)
  | Has (key : GoString)
  | Delete (key : GoString)
  | Len
  | Keys
  deriving DecidableEq

/-- Whether an event is a call of `Put`, `Get`, `Has` or `Delete`. -/
def Event.isEngineCall : Event → Bool
  | Event.Put _ _ => true
  | Event.Get _ => true
  | Event.Has _ => true
  | Event.Delete _ => true
  | _ => false

/-- The operations of the engine handle `db` that the handler uses, over the
engine state `σ`; every operation returns the state it leaves. -/
structure Engine (σ : Type) where
  Put : σ → GoString → GoString → σ × Option GoError
  Get : σ → GoString → σ × GoString × Option GoError
  Has : σ → GoString → σ × Bool
  Delete : σ → GoString → σ × Option GoError
  Len : σ → σ × Int
  Keys : σ → σ × List GoString

/-- The error reply for a wrong argument count. -/
def wrongArgs (name : GoString) : GoString :=
  utf8 "ERR wrong number of arguments for '" ++ name ++ utf8 "' command"

/-- The command handler passed to `redcon.ListenAndServe` in `main`, on the
arguments `cmd.Args`; `toLower` is `strings.ToLower`. The result is the engine
state left behind and the events in order, or `none` when `cmd.Args[0]` is out
of range. -/
def handler {σ : Type} (toLower : GoString → GoString) (E : Engine σ) (db : σ)
    (args : List GoString) : Option (σ × List Event) :=
  match args with
  | [] => none
  | arg0 :: _ =>
    let name := toLower arg0
    if name = utf8 "ping" then some (db, [Event.WriteString (utf8 "PONG")])
    else if name = utf8 "quit" then some (db, [Event.WriteString (utf8 "OK"), Event.Close])
    else if name = utf8 "set" then
      match args with
      | [_, key, value] =>
        match E.Put db key value with
        | (db1, some err) =>
          some (db1, [Event.Put key value, Event.WriteString (utf8 "ERR: " ++ err.msg)])
        | (db1, none) => some (db1, [Event.Put key value, Event.WriteString (utf8 "OK")])
      | _ => some (db, [Event.WriteError (wrongArgs arg0)])
    else if name = utf8 "get" then
      match args with
      | [_, key] =>
        match E.Get db key with
        | (db1, _, some _) => some (db1, [Event.Get key, Event.WriteNull])
        | (db1, value, none) => some (db1, [Event.Get key, Event.WriteBulk value])
      | _ => some (db, [Event.WriteError (wrongArgs arg0)])
    else if name = utf8 "keys" then
      let (db1, n) := E.Len db
      let (db2, keys) := E.Keys db1
      some (db2, [Event.Len, Event.WriteArray n, Event.Keys] ++ keys.map Event.WriteBulk)
    else if name = utf8 "exists" then
      match args with
      | [_, key] =>
        match E.Has db key with
        | (db1, true) => some (db1, [Event.Has key, Event.WriteInt 1])
        | (db1, false) => some (db1, [Event.Has key, Event.WriteInt 0])
      | _ => some (db, [Event.WriteError (wrongArgs arg0)])
    else if name = utf8 "del" then
      match args with
      | [_, key] =>
        match E.Delete db key with
        | (db1, some _) => some (db1, [Event.Delete key, Event.WriteInt 0])
        | (db1, none) => some (db1, [Event.Delete key, Event.WriteInt 1])
      | _ => some (db, [Event.WriteError (wrongArgs arg0)])
    else some (db, [Event.WriteError (utf8 "ERR unknown command '" ++ arg0 ++ utf8 "'")])

/-! ## Vocabulary of the specification -/

/-- A decimal digit, `'0'` to `'9'`. -/
def isDigit (c : UInt8) : Prop := 48 ≤ c.toNat ∧ c.toNat ≤ 57

instance (c : UInt8) : Decidable (isDigit c) := by unfold isDigit; infer_instance

/-- The number that the decimal digits `ds` denote after the digits read so
far denote `n`. -/
def decimalFrom (n : Nat) (ds : List UInt8) : Nat :=
  ds.foldl (fun n c => n * 10 + (c.toNat - 48)) n

/-- The number that the decimal digits `ds` denote. -/
def decimalValue (ds : List UInt8) : Nat := decimalFrom 0 ds

/-- Whether a numeral starts with a minus sign. -/
def hasMinus : GoString → Bool
  | [] => false
  | c :: _ => decide (c.toNat = 45)

/-- A numeral without its optional sign (`+` or `-`). -/
def unsignedPart : GoString → GoString
  | [] => []
  | c :: cs => if c.toNat = 43 ∨ c.toNat = 45 then cs else c :: cs

/-- The integer that a signed decimal numeral denotes. -/
def intValue (s : GoString) : Int :=
  if hasMinus s then -(decimalValue (unsignedPart s) : Int) else (decimalValue (unsignedPart s) : Int)

/-- A base-10 integer: an optional sign followed by one or more decimal
digits, with a value within signed 32 bits. -/
def IsInt32 (s : GoString) : Prop :=
  unsignedPart s ≠ [] ∧ (∀ c ∈ unsignedPart s, isDigit c) ∧
    -(2 : Int) ^ 31 ≤ intValue s ∧ intValue s ≤ 2 ^ 31 - 1

instance (s : GoString) : Decidable (IsInt32 s) := by unfold IsInt32; infer_instance

/-- A file name whose base name has the extension `.data`. -/
def isDataFile (fn : GoString) : Prop := Ext (Base fn) = dataExt

instance (fn : GoString) : Decidable (isDataFile fn) := by unfold isDataFile; infer_instance

/-- The stem of a file name: its base name without the extension. -/
def stem (fn : GoString) : GoString := TrimSuffix (Base fn) (Ext (Base fn))

/-- The segment names of a list of file names: those with the extension
`.data`, in the order of the list. -/
def dataFiles (fns : List GoString) : List GoString := fns.filter (fun fn => isDataFile fn)

/-- The ID that a segment file name encodes. -/
def segmentId (fn : GoString) : Int := intValue (stem fn)

/-- The sum of the sizes of all entries of a walk that are not directories. -/
def fileSizeSum : List WalkCall → Int
  | [] => 0
  | v :: rest => (if v.info.isDir then 0 else v.info.size) + fileSizeSum rest

/-- The sum of the sizes of the segment files of a walk: the entries that are
not directories and whose name has the extension `.data`. -/
def segmentSizeSum : List WalkCall → Int
  | [] => 0
  | v :: rest =>
    (if ¬ v.info.isDir ∧ isDataFile v.info.name then v.info.size else 0) + segmentSizeSum rest

/-- Lower-casing of the ASCII letters of a string. -/
def asciiLower (s : GoString) : GoString :=
  s.map (fun c => if 65 ≤ c.toNat ∧ c.toNat ≤ 90 then c + 32 else c)

/-- An engine that keeps its pairs in a list, newest first. -/
def listEngine : Engine (List (GoString × GoString)) where
  Put := fun db key value => ((key, value) :: db, none)
  Get := fun db key =>
    match db.lookup key with
    | some value => (db, value, none)
    | none => (db, [], some ⟨utf8 "key not found"⟩)
  Has := fun db key => (db, (db.lookup key).isSome)
  Delete := fun db key => (db.filter (fun kv => kv.1 ≠ key), none)
  Len := fun db => (db, db.length)
  Keys := fun db => (db, db.map Prod.fst)

/-- The decimal numeral of a natural number, as `strconv.Itoa` writes it. -/
def formatNat (n : Nat) : GoString := (Nat.toDigits 10 n).map (fun ch => UInt8.ofNat ch.toNat)

/-- The decimal numeral of an integer, as `strconv.Itoa` writes it: a minus
sign for a negative number, no plus sign, no leading zeros. -/
def formatInt (i : Int) : GoString :=
  if i < 0 then 45 :: formatNat i.natAbs else formatNat i.toNat

/-- A canonical numeral: it is written exactly as its value is formatted. -/
def isCanonical (s : GoString) : Prop := s = formatInt (intValue s)

instance (s : GoString) : Decidable (isCanonical s) := by unfold isCanonical; infer_instance

/-- The path made of a directory part `pre` and the segment name `n.data`;
`pre` is empty for a bare name (as for the directory `.`) and otherwise ends
in the separator (`db/`). -/
def segmentPath (pre n : GoString) : GoString := pre ++ (n ++ dataExt)

/-- Numeric order of two digit strings. -/
def valueLe (a b : GoString) : Prop := decimalValue a ≤ decimalValue b

instance : DecidableRel valueLe := fun _ _ => inferInstanceAs (Decidable (_ ≤ _))

instance : IsTotal GoString valueLe := ⟨fun _ _ => Nat.le_total _ _⟩

instance : IsTrans GoString valueLe := ⟨fun _ _ _ h1 h2 => Nat.le_trans h1 h2⟩

/-! ### Lemmas on `Hash` -/

theorem HashLoop_append (k s : List UInt8) (a : Nat) :
    HashLoop (k ++ s) a = HashLoop s (HashLoop k a) := by
  induction k generalizing a with
  | nil => rfl
  | cons c k ih => simp [HashLoop, ih]

theorem HashLoop_lt (k : List UInt8) (a : Nat) (ha : a < 2 ^ 64) :
    HashLoop k a < 2 ^ 64 := by
  induction k generalizing a with
  | nil => simpa [HashLoop] using ha
  | cons c k ih =>
    simp only [HashLoop]
    exact ih _ (Nat.mod_lt _ (by norm_num))

theorem Hash_lt (k : List UInt8) : Hash k < 2 ^ 64 :=
  HashLoop_lt k offset64 (by norm_num [offset64])

theorem byte_lt_word (c : UInt8) : c.toNat < 2 ^ 64 :=
  lt_of_lt_of_le c.toNat_lt (by norm_num)

theorem mul_prime64_inj {x y : Nat} (hx : x < 2 ^ 64) (hy : y < 2 ^ 64)
    (h : (x * prime64) % 2 ^ 64 = (y * prime64) % 2 ^ 64) : x = y := by
  have hc : Nat.gcd (2 ^ 64) prime64 = 1 := by decide
  have h1 : x ≡ y [MOD 2 ^ 64] := Nat.ModEq.cancel_right_of_coprime hc h
  have h2 : x % 2 ^ 64 = y % 2 ^ 64 := h1
  rwa [Nat.mod_eq_of_lt hx, Nat.mod_eq_of_lt hy] at h2

theorem HashLoop_inj (s : List UInt8) {a b : Nat} (ha : a < 2 ^ 64) (hb : b < 2 ^ 64)
    (h : HashLoop s a = HashLoop s b) : a = b := by
  induction s generalizing a b with
  | nil => simpa [HashLoop] using h
  | cons c s ih =>
    simp only [HashLoop] at h
    have h1 := ih (Nat.mod_lt _ (by norm_num)) (Nat.mod_lt _ (by norm_num)) h
    have h2 := mul_prime64_inj (Nat.xor_lt_two_pow ha (byte_lt_word c))
      (Nat.xor_lt_two_pow hb (byte_lt_word c)) h1
    exact Nat.xor_left_injective h2

/-! ### Lemmas on `ParseInt` -/

theorem decimalFrom_cons (n : Nat) (c : UInt8) (cs : List UInt8) :
    decimalFrom n (c :: cs) = decimalFrom (n * 10 + (c.toNat - 48)) cs := rfl

theorem le_decimalFrom (ds : List UInt8) (n : Nat) : n ≤ decimalFrom n ds := by
  induction ds generalizing n with
  | nil => exact le_refl _
  | cons c cs ih =>
    rw [decimalFrom_cons]
    exact le_trans (by omega) (ih _)

theorem ParseUintLoop_digit (M : Nat) (c : UInt8) (cs : List UInt8) (n : Nat)
    (hc : isDigit c) (hn : n ≤ 2 ^ 32 - 1) :
    ParseUintLoop M (c :: cs) n =
      if n * 10 + (c.toNat - 48) > M then (M, some NumError.ErrRange)
      else ParseUintLoop M cs (n * 10 + (c.toNat - 48)) := by
  obtain ⟨h1, h2⟩ := hc
  have hcut : ¬ n ≥ cutoff10 := by
    have : cutoff10 = 1844674407370955162 := by decide
    omega
  have e1 : (n * 10) % 2 ^ 64 = n * 10 := Nat.mod_eq_of_lt (by omega)
  have e2 : (n * 10 + (c.toNat - 48)) % 2 ^ 64 = n * 10 + (c.toNat - 48) :=
    Nat.mod_eq_of_lt (by omega)
  have hd : ¬ c.toNat - 48 ≥ 10 := by omega
  simp only [ParseUintLoop, h1, h2, and_self, if_true, hd, if_false, hcut, e1, e2]
  have : ¬ n * 10 + (c.toNat - 48) < n * 10 := by omega
  simp only [this, false_or]

theorem ParseUintLoop_nondigit (M : Nat) (c : UInt8) (cs : List UInt8) (n : Nat)
    (hc : ¬ isDigit c) :
    ParseUintLoop M (c :: cs) n = (0, some NumError.ErrSyntax) := by
  have hc1 : ¬ (48 ≤ c.toNat ∧ c.toNat ≤ 57) := hc
  by_cases hl : 97 ≤ lower c ∧ lower c ≤ 122
  · have hd : lower c - 97 + 10 ≥ 10 := by omega
    simp [ParseUintLoop, hc1, hl, hd]
  · simp [ParseUintLoop, hc1, hl]

theorem ParseUintLoop_ok (M : Nat) (hM : M ≤ 2 ^ 32 - 1) (ds : List UInt8) (n : Nat)
    (hd : ∀ c ∈ ds, isDigit c) (hn : n ≤ M) (hv : decimalFrom n ds ≤ M) :
    ParseUintLoop M ds n = (decimalFrom n ds, none) := by
  induction ds generalizing n with
  | nil => rfl
  | cons c cs ih =>
    have hc : isDigit c := hd c (List.mem_cons_self _ _)
    rw [ParseUintLoop_digit M c cs n hc (le_trans hn hM)]
    rw [decimalFrom_cons] at hv ⊢
    have h1 : n * 10 + (c.toNat - 48) ≤ M := le_trans (le_decimalFrom _ _) hv
    rw [if_neg (by omega)]
    exact ih _ (fun c h => hd c (List.mem_cons_of_mem _ h)) h1 hv

theorem ParseUintLoop_err (M : Nat) (hM : M ≤ 2 ^ 32 - 1) (ds : List UInt8) (n : Nat)
    (hn : n ≤ M) (h : ¬ (∀ c ∈ ds, isDigit c) ∨ M < decimalFrom n ds) :
    ParseUintLoop M ds n = (0, some NumError.ErrSyntax) ∨
      ParseUintLoop M ds n = (M, some NumError.ErrRange) := by
  induction ds generalizing n with
  | nil =>
    rcases h with h | h
    · exact absurd (fun c hc => absurd hc (List.not_mem_nil c)) h
    · exact absurd hn (not_le.mpr h)
  | cons c cs ih =>
    by_cases hc : isDigit c
    · rw [ParseUintLoop_digit M c cs n hc (le_trans hn hM)]
      by_cases hlt : n * 10 + (c.toNat - 48) > M
      · rw [if_pos hlt]; exact Or.inr rfl
      · rw [if_neg hlt]
        apply ih _ (by omega)
        rcases h with h | h
        · left
          intro hall
          apply h
          intro x hx
          rcases List.mem_cons.mp hx with rfl | hx
          · exact hc
          · exact hall x hx
        · right; exact h
    · rw [ParseUintLoop_nondigit M c cs n hc]; exact Or.inl rfl

theorem ParseUint_ok (s : GoString) (hs : s ≠ []) (hd : ∀ c ∈ s, isDigit c)
    (hv : decimalValue s ≤ 2 ^ 32 - 1) : ParseUint s 32 = (decimalValue s, none) := by
  have := ParseUintLoop_ok (2 ^ 32 - 1) (le_refl _) s 0 hd (Nat.zero_le _) hv
  simp only [ParseUint, hs, if_false]
  simpa using this

theorem ParseUint_err (s : GoString)
    (h : s = [] ∨ ¬ (∀ c ∈ s, isDigit c) ∨ 2 ^ 32 - 1 < decimalValue s) :
    ParseUint s 32 = (0, some NumError.ErrSyntax) ∨
      ParseUint s 32 = (2 ^ 32 - 1, some NumError.ErrRange) := by
  by_cases hs : s = []
  · left; simp [ParseUint, hs]
  · have h1 : ¬ (∀ c ∈ s, isDigit c) ∨ 2 ^ 32 - 1 < decimalFrom 0 s := by
      rcases h with h | h | h
      · exact absurd h hs
      · exact Or.inl h
      · exact Or.inr h
    have := ParseUintLoop_err (2 ^ 32 - 1) (le_refl _) s 0 (Nat.zero_le _) h1
    simp only [ParseUint, hs, if_false]
    simpa using this

theorem ParseInt_cons (c : UInt8) (cs : List UInt8) :
    ParseInt (c :: cs) 32 =
      match ParseUint (unsignedPart (c :: cs)) 32 with
      | (_, some NumError.ErrSyntax) => (0, some NumError.ErrSyntax)
      | (_, some NumError.ErrBitSize) => (0, some NumError.ErrBitSize)
      | (un, _) =>
        if hasMinus (c :: cs) = false ∧ un ≥ 2 ^ 31 then ((2 : Int) ^ 31 - 1, some NumError.ErrRange)
        else if hasMinus (c :: cs) = true ∧ un > 2 ^ 31 then (-(2 : Int) ^ 31, some NumError.ErrRange)
        else (if hasMinus (c :: cs) then -(un : Int) else (un : Int), none) := by
  have hs : (if c.toNat = 43 then cs else if c.toNat = 45 then cs else c :: cs) =
      unsignedPart (c :: cs) := by
    unfold unsignedPart
    by_cases h1 : c.toNat = 43
    · simp [h1]
    · by_cases h2 : c.toNat = 45
      · simp [h2]
      · simp [h1, h2]
  simp only [ParseInt, hs, hasMinus]
  norm_num

theorem ParseInt_ok (s : GoString) (h : IsInt32 s) : ParseInt s 32 = (intValue s, none) := by
  obtain ⟨hne, hd, hlo, hhi⟩ := h
  cases s with
  | nil => exact absurd rfl hne
  | cons c cs =>
    unfold intValue at hlo hhi ⊢
    by_cases hm : hasMinus (c :: cs) = true
    · simp only [hm, if_true] at hlo hhi ⊢
      norm_num at hlo hhi
      have hv : decimalValue (unsignedPart (c :: cs)) ≤ 2 ^ 32 - 1 := by norm_num; omega
      rw [ParseInt_cons, ParseUint_ok _ hne hd hv]
      simp [hm]
      omega
    · rw [Bool.not_eq_true] at hm
      simp only [hm, Bool.false_eq_true, if_false] at hlo hhi ⊢
      norm_num at hlo hhi
      have hv : decimalValue (unsignedPart (c :: cs)) ≤ 2 ^ 32 - 1 := by norm_num; omega
      rw [ParseInt_cons, ParseUint_ok _ hne hd hv]
      simp [hm]
      omega

theorem ParseInt_err (s : GoString) (h : ¬ IsInt32 s) : (ParseInt s 32).2 ≠ none := by
  cases s with
  | nil => simp [ParseInt]
  | cons c cs =>
    rw [ParseInt_cons]
    by_cases hu : unsignedPart (c :: cs) ≠ [] ∧ (∀ x ∈ unsignedPart (c :: cs), isDigit x) ∧
        decimalValue (unsignedPart (c :: cs)) ≤ 2 ^ 32 - 1
    · obtain ⟨hne, hd, hv⟩ := hu
      rw [ParseUint_ok _ hne hd hv]
      have hr : ¬ (-(2 : Int) ^ 31 ≤ intValue (c :: cs) ∧ intValue (c :: cs) ≤ 2 ^ 31 - 1) :=
        fun hr => h ⟨hne, hd, hr.1, hr.2⟩
      unfold intValue at hr
      by_cases hm : hasMinus (c :: cs) = true
      · simp only [hm, if_true] at hr
        norm_num at hr
        simp [hm]
        rw [if_pos (by omega)]
        simp
      · rw [Bool.not_eq_true] at hm
        simp only [hm, Bool.false_eq_true, if_false] at hr
        norm_num at hr
        simp [hm]
        rw [if_pos (by omega)]
        simp
    · have hu1 : unsignedPart (c :: cs) = [] ∨ ¬ (∀ x ∈ unsignedPart (c :: cs), isDigit x) ∨
          2 ^ 32 - 1 < decimalValue (unsignedPart (c :: cs)) := by
        by_contra hcon
        push_neg at hcon
        exact hu ⟨hcon.1, hcon.2.1, hcon.2.2⟩
      rcases ParseUint_err _ hu1 with he | he
      · rw [he]; simp
      · rw [he]
        by_cases hm : hasMinus (c :: cs) = true
        · simp [hm]
        · simp [hm]

theorem ParseInt_err_iff (s : GoString) : (ParseInt s 32).2 ≠ none ↔ ¬ IsInt32 s := by
  constructor
  · intro h hs
    rw [ParseInt_ok s hs] at h
    exact h rfl
  · exact ParseInt_err s

/-! ### Lemmas on `ParseIds` -/

theorem ParseIdsLoop_skip (fn : GoString) (rest : List GoString) (ids : List Int)
    (h : ¬ isDataFile fn) : ParseIdsLoop (fn :: rest) ids = ParseIdsLoop rest ids := by
  have h1 : Ext (Base fn) ≠ dataExt := h
  simp [ParseIdsLoop, h1]

theorem ParseIdsLoop_ok (fn : GoString) (rest : List GoString) (ids : List Int)
    (h : isDataFile fn) (hs : IsInt32 (stem fn)) :
    ParseIdsLoop (fn :: rest) ids = ParseIdsLoop rest (ids ++ [segmentId fn]) := by
  have h1 : Ext (Base fn) = dataExt := h
  have h2 := ParseInt_ok (stem fn) hs
  unfold stem at h2
  rw [h1] at h2
  simp [ParseIdsLoop, h1, h2, segmentId, stem]

theorem ParseIdsLoop_bad (fn : GoString) (rest : List GoString) (ids : List Int)
    (h : isDataFile fn) (hs : ¬ IsInt32 (stem fn)) :
    (ParseIdsLoop (fn :: rest) ids).1 = [] ∧ (ParseIdsLoop (fn :: rest) ids).2 ≠ none := by
  have h1 : Ext (Base fn) = dataExt := h
  have h2 := ParseInt_err (stem fn) hs
  unfold stem at h2
  rw [h1] at h2
  simp only [ParseIdsLoop, h1, ne_eq, not_true_eq_false, if_false]
  rcases hp : ParseInt (TrimSuffix (Base fn) dataExt) 32 with ⟨v, e⟩
  rw [hp] at h2
  cases e with
  | none => exact absurd rfl h2
  | some e => simp

theorem ParseIdsLoop_all_ok (fns : List GoString) (ids : List Int)
    (h : ∀ fn ∈ fns, isDataFile fn → IsInt32 (stem fn)) :
    ParseIdsLoop fns ids = (sortInts (ids ++ (dataFiles fns).map segmentId), none) := by
  induction fns generalizing ids with
  | nil => simp [ParseIdsLoop, dataFiles]
  | cons fn rest ih =>
    have hrest : ∀ f ∈ rest, isDataFile f → IsInt32 (stem f) :=
      fun f hf => h f (List.mem_cons_of_mem _ hf)
    by_cases hd : isDataFile fn
    · rw [ParseIdsLoop_ok fn rest ids hd (h fn (List.mem_cons_self _ _) hd), ih _ hrest]
      simp [dataFiles, hd]
    · rw [ParseIdsLoop_skip fn rest ids hd, ih _ hrest]
      simp [dataFiles, hd]

theorem ParseIdsLoop_some_bad (fns : List GoString) (ids : List Int)
    (h : ∃ fn ∈ fns, isDataFile fn ∧ ¬ IsInt32 (stem fn)) :
    (ParseIdsLoop fns ids).1 = [] ∧ (ParseIdsLoop fns ids).2 ≠ none := by
  induction fns generalizing ids with
  | nil =>
    obtain ⟨fn, hfn, _⟩ := h
    exact absurd hfn (List.not_mem_nil fn)
  | cons fn rest ih =>
    by_cases hd : isDataFile fn
    · by_cases hs : IsInt32 (stem fn)
      · rw [ParseIdsLoop_ok fn rest ids hd hs]
        apply ih
        obtain ⟨f, hf, hfd, hfs⟩ := h
        rcases List.mem_cons.mp hf with rfl | hf
        · exact absurd hs hfs
        · exact ⟨f, hf, hfd, hfs⟩
      · exact ParseIdsLoop_bad fn rest ids hd hs
    · rw [ParseIdsLoop_skip fn rest ids hd]
      apply ih
      obtain ⟨f, hf, hfd, hfs⟩ := h
      rcases List.mem_cons.mp hf with rfl | hf
      · exact absurd hfd hd
      · exact ⟨f, hf, hfd, hfs⟩

theorem ParseIds_success (fns : List GoString) (ids : List Int)
    (h : ParseIds fns = (ids, none)) :
    (∀ fn ∈ fns, isDataFile fn → IsInt32 (stem fn)) ∧
      ids = sortInts ((dataFiles fns).map segmentId) := by
  have hall : ∀ fn ∈ fns, isDataFile fn → IsInt32 (stem fn) := by
    intro fn hfn hd
    by_contra hs
    have := (ParseIdsLoop_some_bad fns [] ⟨fn, hfn, hd, hs⟩).2
    unfold ParseIds at h
    rw [h] at this
    exact this rfl
  refine ⟨hall, ?_⟩
  have h2 := ParseIdsLoop_all_ok fns [] hall
  unfold ParseIds at h
  rw [h] at h2
  simpa using congrArg Prod.fst h2

theorem sortInts_sorted (l : List Int) : List.Sorted (fun a b => a ≤ b) (sortInts l) :=
  List.sorted_insertionSort (fun a b : Int => a ≤ b) l

theorem sortInts_perm (l : List Int) : List.Perm (sortInts l) l :=
  List.perm_insertionSort (fun a b : Int => a ≤ b) l

/-! ### Lemmas on `filepath.Base` -/

theorem stripTrailingSlashes_of_noSlash (q : GoString) (h : ∀ c ∈ q, ¬ c.toNat = 47) :
    stripTrailingSlashes q = q := by
  unfold stripTrailingSlashes
  have : q.reverse.dropWhile (fun c => decide (c.toNat = 47)) = q.reverse := by
    cases hq : q.reverse with
    | nil => rfl
    | cons x xs =>
      have hx : x ∈ q := by
        rw [← List.mem_reverse, hq]; exact List.mem_cons_self _ _
      simp [List.dropWhile, h x hx]
  rw [this, List.reverse_reverse]

theorem lastElement_of_noSlash (q : GoString) (h : ∀ c ∈ q, ¬ c.toNat = 47) :
    lastElement q = q := by
  unfold lastElement
  have : q.reverse.takeWhile (fun c => decide (¬ c.toNat = 47)) = q.reverse := by
    rw [List.takeWhile_eq_self_iff]
    intro x hx
    simpa using h x (List.mem_reverse.mp hx)
  rw [this, List.reverse_reverse]

theorem lastElement_noSlash (p : GoString) : ∀ c ∈ lastElement p, ¬ c.toNat = 47 := by
  intro c hc
  unfold lastElement at hc
  rw [List.mem_reverse] at hc
  simpa using List.mem_takeWhile_imp hc

theorem Base_of_noSlash (q : GoString) (hq : q ≠ []) (h : ∀ c ∈ q, ¬ c.toNat = 47) :
    Base q = q := by
  unfold Base
  simp only [hq, if_false]
  rw [stripTrailingSlashes_of_noSlash q h, lastElement_of_noSlash q h]
  simp [hq]

theorem Base_idem (p : GoString) : Base (Base p) = Base p := by
  by_cases hp : p = []
  · subst hp; decide
  · by_cases hq : lastElement (stripTrailingSlashes p) = []
    · have : Base p = utf8 "/" := by simp [Base, hp, hq]
      rw [this]; decide
    · have : Base p = lastElement (stripTrailingSlashes p) := by simp [Base, hp, hq]
      rw [this]
      exact Base_of_noSlash _ hq (lastElement_noSlash _)

theorem takeWhile_append_stop {α : Type} (p : α → Bool) (l r : List α) (a : α)
    (hl : ∀ x ∈ l, p x = true) (ha : p a = false) :
    (l ++ a :: r).takeWhile p = l := by
  induction l with
  | nil => simp [List.takeWhile, ha]
  | cons x xs ih =>
    have hx := hl x (List.mem_cons_self _ _)
    rw [List.cons_append, List.takeWhile_cons, hx, if_pos rfl,
      ih (fun y hy => hl y (List.mem_cons_of_mem _ hy))]

theorem utf8_slash : utf8 "/" = [47] := by decide

theorem Base_dir_name (dir name : GoString) (hn : name ≠ [])
    (h : ∀ c ∈ name, ¬ c.toNat = 47) : Base (dir ++ utf8 "/" ++ name) = name := by
  rw [utf8_slash]
  have hne : dir ++ [47] ++ name ≠ [] := by
    intro hcon
    have := congrArg List.length hcon
    simp at this
  have hstrip : stripTrailingSlashes (dir ++ [47] ++ name) = dir ++ [47] ++ name := by
    unfold stripTrailingSlashes
    have : (dir ++ [47] ++ name).reverse.dropWhile (fun c => decide (c.toNat = 47)) =
        (dir ++ [47] ++ name).reverse := by
      rw [List.reverse_append]
      cases hq : name.reverse with
      | nil => exact absurd (List.reverse_eq_nil_iff.mp hq) hn
      | cons x xs =>
        have hx : x ∈ name := by
          rw [← List.mem_reverse, hq]; exact List.mem_cons_self _ _
        simp [List.dropWhile, h x hx]
    rw [this, List.reverse_reverse]
  have hlast : lastElement (dir ++ [47] ++ name) = name := by
    unfold lastElement
    have e : (dir ++ [47] ++ name).reverse = name.reverse ++ (47 : UInt8) :: dir.reverse := by
      simp
    rw [e, takeWhile_append_stop _ _ _ _ _ (by decide), List.reverse_reverse]
    intro x hx
    simpa using h x (List.mem_reverse.mp hx)
  unfold Base
  simp only [hne, if_false]
  rw [hstrip, hlast]
  simp [hn]

theorem ParseIdsLoop_map_Base (fns : List GoString) (ids : List Int) :
    ParseIdsLoop (fns.map Base) ids = ParseIdsLoop fns ids := by
  induction fns generalizing ids with
  | nil => rfl
  | cons fn rest ih =>
    simp only [List.map_cons, ParseIdsLoop, Base_idem, ih]

/-! ### Lemmas on `DirSize` -/

theorem wrapInt64_of_range (x : Int) (h1 : -(2 : Int) ^ 63 ≤ x) (h2 : x < 2 ^ 63) :
    wrapInt64 x = x := by
  unfold wrapInt64
  omega

theorem wrapInt64_range (x : Int) : -(2 : Int) ^ 63 ≤ wrapInt64 x ∧ wrapInt64 x < 2 ^ 63 := by
  unfold wrapInt64
  omega

theorem wrapInt64_add (a b : Int) : wrapInt64 (wrapInt64 a + b) = wrapInt64 (a + b) := by
  unfold wrapInt64
  omega

theorem Walk_no_error (tree : List WalkCall) (size : Int) (h : ∀ v ∈ tree, v.err = none) :
    Walk tree (wrapInt64 size) = (wrapInt64 (size + fileSizeSum tree), none) := by
  induction tree generalizing size with
  | nil => simp [Walk, fileSizeSum]
  | cons v rest ih =>
    have hv : v.err = none := h v (List.mem_cons_self _ _)
    have hrest : ∀ w ∈ rest, w.err = none := fun w hw => h w (List.mem_cons_of_mem _ hw)
    by_cases hd : v.info.isDir = true
    · simp only [Walk, walkFn, hv, fileSizeSum, hd, not_true_eq_false, if_false, if_true]
      rw [ih size hrest, zero_add]
    · rw [Bool.not_eq_true] at hd
      simp only [Walk, walkFn, hv, fileSizeSum, hd, Bool.false_eq_true, not_false_eq_true,
        if_true, if_false]
      rw [wrapInt64_add, ih (size + v.info.size) hrest, add_assoc]

/-! ### Lemmas on `filepath.Ext` and `strings.TrimSuffix` -/

theorem ExtLoop_suffix (rev acc : List UInt8) :
    ExtLoop rev acc = [] ∨ ∃ pre, rev.reverse ++ acc = pre ++ ExtLoop rev acc := by
  induction rev generalizing acc with
  | nil => exact Or.inl rfl
  | cons c rev ih =>
    by_cases h1 : c.toNat = 47
    · left; simp [ExtLoop, h1]
    · by_cases h2 : c.toNat = 46
      · right
        exact ⟨rev.reverse, by simp [ExtLoop, h1, h2]⟩
      · rcases ih (c :: acc) with h | ⟨pre, h⟩
        · left; simp [ExtLoop, h1, h2, h]
        · right
          exact ⟨pre, by simp [ExtLoop, h1, h2, ← h]⟩

theorem TrimSuffix_append (pre e : GoString) : TrimSuffix (pre ++ e) e = pre := by
  have h1 : (pre ++ e).length - e.length = pre.length := by simp
  have h2 : HasSuffix (pre ++ e) e = true := by
    unfold HasSuffix
    rw [h1, List.drop_left]
    simp
  unfold TrimSuffix
  rw [h2, if_pos rfl, h1, List.take_left]

theorem Base_eq_stem_append (fn : GoString) (h : isDataFile fn) :
    Base fn = stem fn ++ dataExt := by
  have he : Ext (Base fn) = dataExt := h
  rcases ExtLoop_suffix (Base fn).reverse [] with h0 | ⟨pre, hpre⟩
  · have : Ext (Base fn) = [] := h0
    rw [he] at this
    exact absurd this (by decide)
  · have hb : Base fn = pre ++ dataExt := by
      have : Ext (Base fn) = ExtLoop (Base fn).reverse [] := rfl
      rw [← this, he] at hpre
      simpa using hpre
    have hs : stem fn = pre := by
      unfold stem
      rw [he, hb, TrimSuffix_append]
    rw [hs, hb]

theorem segmentId_inj_of_canonical (a b : GoString) (ha : isDataFile a) (hb : isDataFile b)
    (hca : isCanonical (stem a)) (hcb : isCanonical (stem b))
    (h : segmentId a = segmentId b) : Base a = Base b := by
  have hs : stem a = stem b := by
    unfold isCanonical at hca hcb
    unfold segmentId at h
    rw [hca, hcb, h]
  rw [Base_eq_stem_append a ha, Base_eq_stem_append b hb, hs]

theorem sortInts_strict (l : List Int) (h : l.Nodup) :
    List.Sorted (fun a b => a < b) (sortInts l) ∧ (sortInts l).Nodup := by
  have hn : (sortInts l).Nodup := (sortInts_perm l).nodup_iff.mpr h
  refine ⟨?_, hn⟩
  have hs := sortInts_sorted l
  unfold List.Sorted at hs ⊢
  exact (hs.and hn).imp (fun h => lt_of_le_of_ne h.1 h.2)

/-! ### Lemmas on fixed-width names -/

theorem decimalFrom_eq (ds : List UInt8) (n : Nat) :
    decimalFrom n ds = n * 10 ^ ds.length + decimalValue ds := by
  induction ds generalizing n with
  | nil => simp [decimalFrom, decimalValue]
  | cons c cs ih =>
    have h1 := ih (n * 10 + (c.toNat - 48))
    have h2 := ih (0 * 10 + (c.toNat - 48))
    unfold decimalValue
    rw [decimalFrom_cons, decimalFrom_cons, h1, h2, List.length_cons, pow_succ]
    ring

theorem decimalValue_cons (c : UInt8) (cs : List UInt8) :
    decimalValue (c :: cs) = (c.toNat - 48) * 10 ^ cs.length + decimalValue cs := by
  have := decimalFrom_eq cs (0 * 10 + (c.toNat - 48))
  unfold decimalValue at this ⊢
  rw [decimalFrom_cons, this]
  simp

theorem decimalValue_lt (ds : List UInt8) (h : ∀ c ∈ ds, isDigit c) :
    decimalValue ds < 10 ^ ds.length := by
  induction ds with
  | nil => simp [decimalValue, decimalFrom]
  | cons c cs ih =>
    have hc : isDigit c := h c (List.mem_cons_self _ _)
    have hcs := ih (fun x hx => h x (List.mem_cons_of_mem _ hx))
    rw [decimalValue_cons, List.length_cons, pow_succ]
    obtain ⟨h1, h2⟩ := hc
    have h3 : c.toNat - 48 ≤ 9 := by omega
    have h4 : (c.toNat - 48) * 10 ^ cs.length ≤ 9 * 10 ^ cs.length :=
      Nat.mul_le_mul_right _ h3
    omega

theorem strLess_irrefl (s : GoString) : strLess s s = false := by
  induction s with
  | nil => rfl
  | cons c cs ih => simp [strLess, ih]

theorem strLess_append_left (p x y : GoString) : strLess (p ++ x) (p ++ y) = strLess x y := by
  induction p with
  | nil => rfl
  | cons c cs ih => simp [strLess, ih]

theorem strLess_digits (suf : GoString) (a b : List UInt8) (hlen : a.length = b.length)
    (ha : ∀ c ∈ a, isDigit c) (hb : ∀ c ∈ b, isDigit c) :
    strLess (a ++ suf) (b ++ suf) = true ↔ decimalValue a < decimalValue b := by
  induction a generalizing b with
  | nil =>
    cases b with
    | nil => simp [strLess_irrefl]
    | cons y bs => simp at hlen
  | cons x as ih =>
    cases b with
    | nil => simp at hlen
    | cons y bs =>
      have hl : as.length = bs.length := by simpa using hlen
      have hx : isDigit x := ha x (List.mem_cons_self _ _)
      have hy : isDigit y := hb y (List.mem_cons_self _ _)
      have has : ∀ c ∈ as, isDigit c := fun c hc => ha c (List.mem_cons_of_mem _ hc)
      have hbs : ∀ c ∈ bs, isDigit c := fun c hc => hb c (List.mem_cons_of_mem _ hc)
      have iha := ih bs hl has hbs
      have va := decimalValue_lt as has
      have vb := decimalValue_lt bs hbs
      rw [decimalValue_cons, decimalValue_cons, ← hl]
      rw [← hl] at vb
      obtain ⟨hx1, hx2⟩ := hx
      obtain ⟨hy1, hy2⟩ := hy
      rw [List.cons_append, List.cons_append]
      simp only [strLess, Bool.or_eq_true, Bool.and_eq_true, decide_eq_true_eq, iha]
      rcases Nat.lt_trichotomy x.toNat y.toNat with hlt | heq | hgt
      · have h1 : (x.toNat - 48 + 1) * 10 ^ as.length ≤ (y.toNat - 48) * 10 ^ as.length :=
          Nat.mul_le_mul_right _ (by omega)
        rw [Nat.add_mul, one_mul] at h1
        constructor
        · intro _; omega
        · intro _; exact Or.inl hlt
      · rw [heq]
        constructor
        · rintro (h | ⟨_, h⟩)
          · omega
          · omega
        · intro h; exact Or.inr ⟨rfl, by omega⟩
      · have h1 : (y.toNat - 48 + 1) * 10 ^ as.length ≤ (x.toNat - 48) * 10 ^ as.length :=
          Nat.mul_le_mul_right _ (by omega)
        rw [Nat.add_mul, one_mul] at h1
        constructor
        · rintro (h | ⟨h, _⟩)
          · omega
          · omega
        · intro h; omega

theorem dataExt_eq : dataExt = [46, 100, 97, 116, 97] := by decide

theorem Ext_append_dataExt (n : GoString) : Ext (n ++ dataExt) = dataExt := by
  rw [dataExt_eq]
  unfold Ext
  simp [ExtLoop, UInt8.size]

theorem digit_ne_slash (n : GoString) (hn : ∀ c ∈ n, isDigit c) :
    ∀ c ∈ n ++ dataExt, ¬ c.toNat = 47 := by
  intro c hc
  rcases List.mem_append.mp hc with h | h
  · have := hn c h
    unfold isDigit at this
    omega
  · rw [dataExt_eq] at h
    simp only [List.mem_cons, List.mem_singleton, List.not_mem_nil, or_false] at h
    rcases h with rfl | rfl | rfl | rfl | rfl <;> decide

theorem Base_bare_name (n : GoString) (hn : ∀ c ∈ n, isDigit c) :
    Base (n ++ dataExt) = n ++ dataExt := by
  apply Base_of_noSlash _ _ (digit_ne_slash n hn)
  rw [dataExt_eq]
  simp

theorem Base_dir_segment (dir n : GoString) (hn : ∀ c ∈ n, isDigit c) :
    Base (dir ++ utf8 "/" ++ (n ++ dataExt)) = n ++ dataExt := by
  apply Base_dir_name _ _ _ (digit_ne_slash n hn)
  rw [dataExt_eq]
  simp

theorem isDataFile_of_Base (p n : GoString) (hb : Base p = n ++ dataExt) : isDataFile p := by
  unfold isDataFile
  rw [hb, Ext_append_dataExt]

theorem stem_of_Base (p n : GoString) (hb : Base p = n ++ dataExt) : stem p = n := by
  unfold stem
  rw [hb, Ext_append_dataExt, TrimSuffix_append]

theorem unsignedPart_digits (n : GoString) (hn : ∀ c ∈ n, isDigit c) :
    unsignedPart n = n ∧ hasMinus n = false := by
  cases n with
  | nil => exact ⟨rfl, rfl⟩
  | cons c cs =>
    have hc : isDigit c := hn c (List.mem_cons_self _ _)
    unfold isDigit at hc
    have h1 : ¬ c.toNat = 43 := by omega
    have h2 : ¬ c.toNat = 45 := by omega
    simp [unsignedPart, hasMinus, h1, h2]

theorem intValue_digits (n : GoString) (hn : ∀ c ∈ n, isDigit c) :
    intValue n = (decimalValue n : Int) := by
  obtain ⟨h1, h2⟩ := unsignedPart_digits n hn
  simp [intValue, h1, h2]

theorem IsInt32_digits (n : GoString) (hne : n ≠ []) (hlen : n.length ≤ 9)
    (hn : ∀ c ∈ n, isDigit c) : IsInt32 n := by
  obtain ⟨h1, h2⟩ := unsignedPart_digits n hn
  have hv := decimalValue_lt n hn
  have hp : 10 ^ n.length ≤ 10 ^ 9 := Nat.pow_le_pow_right (by norm_num) hlen
  refine ⟨by rw [h1]; exact hne, by rw [h1]; exact hn, ?_, ?_⟩
  · rw [intValue_digits n hn]
    have : (0 : Int) ≤ (decimalValue n : Int) := Int.natCast_nonneg _
    norm_num
    omega
  · rw [intValue_digits n hn]
    norm_num at hp ⊢
    omega

theorem valueLe_iff_strLess (pre a b : GoString) (hlen : a.length = b.length)
    (ha : ∀ c ∈ a, isDigit c) (hb : ∀ c ∈ b, isDigit c) :
    valueLe a b ↔ strLess (segmentPath pre b) (segmentPath pre a) = false := by
  unfold segmentPath valueLe
  rw [strLess_append_left, ← Bool.not_eq_true, strLess_digits dataExt b a hlen.symm hb ha]
  exact not_lt.symm

theorem sortStrings_segmentPath (pre : GoString) (w : Nat) (names : List GoString)
    (hn : ∀ n ∈ names, n.length = w ∧ ∀ c ∈ n, isDigit c) :
    sortStrings (names.map (segmentPath pre)) =
      (names.insertionSort valueLe).map (segmentPath pre) := by
  unfold sortStrings
  symm
  apply List.map_insertionSort
  intro a ha b hb
  exact valueLe_iff_strLess pre a b ((hn a ha).1.trans (hn b hb).1.symm) (hn a ha).2 (hn b hb).2

theorem ParseInt_segmentPath (pre n : GoString) (hne : n ≠ []) (hlen : n.length ≤ 9)
    (hn : ∀ c ∈ n, isDigit c) (hb : Base (segmentPath pre n) = n ++ dataExt) :
    ParseInt (stem (segmentPath pre n)) 32 = ((decimalValue n : Int), none) ∧
      segmentId (segmentPath pre n) = (decimalValue n : Int) := by
  have hs := stem_of_Base _ n hb
  constructor
  · rw [hs, ParseInt_ok n (IsInt32_digits n hne hlen hn), intValue_digits n hn]
  · unfold segmentId
    rw [hs, intValue_digits n hn]

theorem ParseIds_map_segmentPath (pre : GoString) (t : List GoString)
    (ht : ∀ n ∈ t, n ≠ [] ∧ n.length ≤ 9 ∧ (∀ c ∈ n, isDigit c) ∧
      Base (segmentPath pre n) = n ++ dataExt)
    (hs : List.Sorted valueLe t) :
    ParseIds (t.map (segmentPath pre)) =
      (t.map (fun n => (decimalValue n : Int)), none) := by
  have hall : ∀ fn ∈ t.map (segmentPath pre), isDataFile fn → IsInt32 (stem fn) := by
    intro fn hfn _
    obtain ⟨n, hnt, rfl⟩ := List.mem_map.mp hfn
    obtain ⟨h1, h2, h3, h4⟩ := ht n hnt
    rw [stem_of_Base _ n h4]
    exact IsInt32_digits n h1 h2 h3
  have hdata : dataFiles (t.map (segmentPath pre)) = t.map (segmentPath pre) := by
    unfold dataFiles
    rw [List.filter_eq_self]
    intro fn hfn
    obtain ⟨n, hnt, rfl⟩ := List.mem_map.mp hfn
    simpa using isDataFile_of_Base _ n (ht n hnt).2.2.2
  have hids : (t.map (segmentPath pre)).map segmentId =
      t.map (fun n => (decimalValue n : Int)) := by
    rw [List.map_map]
    apply List.map_congr_left
    intro n hnt
    obtain ⟨h1, h2, h3, h4⟩ := ht n hnt
    exact (ParseInt_segmentPath pre n h1 h2 h3 h4).2
  have hsorted : List.Sorted (fun a b : Int => a ≤ b) (t.map (fun n => (decimalValue n : Int))) := by
    unfold List.Sorted at hs ⊢
    rw [List.pairwise_map]
    exact hs.imp (fun h => by unfold valueLe at h; exact_mod_cast h)
  unfold ParseIds
  rw [ParseIdsLoop_all_ok _ [] hall, hdata, hids, List.nil_append]
  unfold sortInts
  rw [hsorted.insertionSort_eq]

theorem paths_eq_map_segmentPath (pre : GoString) (w : Nat) (paths : List GoString)
    (hp : ∀ p ∈ paths, ∃ n : GoString, n.length = w ∧ (∀ c ∈ n, isDigit c) ∧
      p = pre ++ n ++ utf8 ".data" ∧ Base p = n ++ utf8 ".data") :
    paths = (paths.map stem).map (segmentPath pre) ∧
      ∀ n ∈ paths.map stem, n.length = w ∧ (∀ c ∈ n, isDigit c) ∧
        Base (segmentPath pre n) = n ++ dataExt := by
  have hstem : ∀ p ∈ paths, segmentPath pre (stem p) = p ∧ (stem p).length = w ∧
      (∀ c ∈ stem p, isDigit c) ∧ Base p = stem p ++ dataExt := by
    intro p hmem
    obtain ⟨n, h1, h2, h3, h4⟩ := hp p hmem
    have hs : stem p = n := stem_of_Base p n h4
    rw [hs]
    refine ⟨?_, h1, h2, h4⟩
    rw [h3]
    unfold segmentPath dataExt
    rw [List.append_assoc]
  constructor
  · rw [List.map_map]
    conv_lhs => rw [← List.map_id paths]
    apply List.map_congr_left
    intro p hmem
    exact (hstem p hmem).1.symm
  · intro n hmem
    obtain ⟨p, hpm, rfl⟩ := List.mem_map.mp hmem
    obtain ⟨h0, h1, h2, h3⟩ := hstem p hpm
    refine ⟨h1, h2, ?_⟩
    rw [h0]
    exact h3

/-! ## Theorems on `Hash` -/

/-- C5: `Hash` is 64-bit FNV-1a: the empty key hashes to the offset basis,
appending a byte `c` to a key XORs `c` into the hash and then multiplies by
the prime modulo `2 ^ 64`, and `Hash("a") = 0xaf63dc4c8601ec8c`. -/
theorem Hash_fnv1a :
    Hash [] = 14695981039346656037 ∧
    Hash [] = 0xcbf29ce484222325 ∧
    (∀ (k : List UInt8) (c : UInt8),
      Hash (k ++ [c]) = ((Hash k ^^^ c.toNat) * 1099511628211) % 2 ^ 64) ∧
    Hash (utf8 "a") = 0xaf63dc4c8601ec8c := by
  refine ⟨rfl, by decide, ?_, by decide⟩
  intro k c
  simp [Hash, HashLoop_append, HashLoop, prime64]

/-- C8: two keys that differ in exactly one byte never have the same hash,
and appending a common suffix to two keys preserves both equality and
inequality of their hashes. -/
theorem Hash_suffix_injective :
    (∀ (p s : List UInt8) (c d : UInt8), c ≠ d →
      Hash (p ++ [c] ++ s) ≠ Hash (p ++ [d] ++ s)) ∧
    (∀ k1 k2 s : List UInt8, Hash (k1 ++ s) = Hash (k2 ++ s) ↔ Hash k1 = Hash k2) := by
  have key : ∀ k1 k2 s : List UInt8,
      Hash (k1 ++ s) = Hash (k2 ++ s) ↔ Hash k1 = Hash k2 := by
    intro k1 k2 s
    unfold Hash
    rw [HashLoop_append, HashLoop_append]
    constructor
    · exact HashLoop_inj s (HashLoop_lt _ _ (by norm_num [offset64]))
        (HashLoop_lt _ _ (by norm_num [offset64]))
    · intro h; rw [h]
  refine ⟨?_, key⟩
  intro p s c d hcd h
  rw [key] at h
  unfold Hash at h
  rw [HashLoop_append, HashLoop_append] at h
  simp only [HashLoop] at h
  have hp := HashLoop_lt p offset64 (by norm_num [offset64])
  have h2 := mul_prime64_inj (Nat.xor_lt_two_pow hp (byte_lt_word c))
    (Nat.xor_lt_two_pow hp (byte_lt_word d)) h
  have h3 : c.toNat = d.toNat := Nat.xor_right_injective h2
  exact hcd (UInt8.toNat.inj h3)

/-- Witness of C8 on the keys `key1` and `key2`. -/
theorem Hash_suffix_injective_witness :
    Hash (utf8 "key" ++ [49] ++ utf8 "") ≠ Hash (utf8 "key" ++ [50] ++ utf8 "") :=
  Hash_suffix_injective.1 (utf8 "key") (utf8 "") 49 50 (by decide)


/-! ## Theorems on `ParseIds` -/

/-- C1: whenever `ParseIds` succeeds, the IDs it returns are in ascending
numeric order, whatever the order of the names; `ParseIds(["10.data",
"2.data"])` returns `[2, 10]`. -/
theorem ParseIds_ascending (fns : List GoString) (ids : List Int)
    (h : ParseIds fns = (ids, none)) :
    List.Sorted (fun a b => a ≤ b) ids ∧
    ParseIds [utf8 "10.data", utf8 "2.data"] = ([2, 10], none) := by
  refine ⟨?_, by decide⟩
  rw [(ParseIds_success fns ids h).2]
  exact sortInts_sorted _

/-- Witness of C1 on `["b/10.data", "a/2.data", "9.data"]`. -/
theorem ParseIds_ascending_witness :
    ParseIds [utf8 "b/10.data", utf8 "a/2.data", utf8 "9.data"] = ([2, 9, 10], none) ∧
    List.Sorted (fun a b => a ≤ b) ([2, 9, 10] : List Int) :=
  ⟨by decide,
    (ParseIds_ascending [utf8 "b/10.data", utf8 "a/2.data", utf8 "9.data"] [2, 9, 10]
      (by decide)).1⟩

/-- C2: whenever `ParseIds` succeeds, the result is a permutation of the IDs
encoded by the stems of exactly the names whose base name has the extension
`.data`, one per such name; directory components are ignored; the empty list
gives the empty list and no error. -/
theorem ParseIds_perm (fns : List GoString) (ids : List Int)
    (h : ParseIds fns = (ids, none)) :
    List.Perm ids ((dataFiles fns).map segmentId) ∧
    ids.length = (dataFiles fns).length ∧
    ParseIds (fns.map Base) = ParseIds fns ∧
    (∀ dir name : GoString, name ≠ [] → (∀ c ∈ name, ¬ c.toNat = 47) →
      Base (dir ++ utf8 "/" ++ name) = name) ∧
    ParseIds [] = ([], none) := by
  have hp : List.Perm ids ((dataFiles fns).map segmentId) := by
    rw [(ParseIds_success fns ids h).2]
    exact sortInts_perm _
  refine ⟨hp, ?_, ParseIdsLoop_map_Base fns [], Base_dir_name, by decide⟩
  simpa using hp.length_eq

/-- Witness of C2 on `["b/10.data", "notes.txt", "a/2.data"]`. -/
theorem ParseIds_perm_witness :
    ParseIds [utf8 "b/10.data", utf8 "notes.txt", utf8 "a/2.data"] = ([2, 10], none) ∧
    List.Perm ([2, 10] : List Int)
      ((dataFiles [utf8 "b/10.data", utf8 "notes.txt", utf8 "a/2.data"]).map segmentId) :=
  ⟨by decide,
    (ParseIds_perm [utf8 "b/10.data", utf8 "notes.txt", utf8 "a/2.data"] [2, 10]
      (by decide)).1⟩

/-- C3: `ParseIds` returns an error exactly when some name with the `.data`
extension has a stem that is not a base-10 integer within signed 32 bits, and
whenever it returns an error it returns the nil slice. -/
theorem ParseIds_error_iff (fns : List GoString) :
    ((ParseIds fns).2 ≠ none ↔ ∃ fn ∈ fns, isDataFile fn ∧ ¬ IsInt32 (stem fn)) ∧
    ((ParseIds fns).2 ≠ none → (ParseIds fns).1 = []) := by
  have hiff : (ParseIds fns).2 ≠ none ↔ ∃ fn ∈ fns, isDataFile fn ∧ ¬ IsInt32 (stem fn) := by
    constructor
    · intro herr
      by_contra hcon
      push_neg at hcon
      have := ParseIdsLoop_all_ok fns [] hcon
      unfold ParseIds at herr
      rw [this] at herr
      exact herr rfl
    · intro hbad
      exact (ParseIdsLoop_some_bad fns [] hbad).2
  refine ⟨hiff, ?_⟩
  intro herr
  exact (ParseIdsLoop_some_bad fns [] (hiff.mp herr)).1

/-- Witness of C3 on `["1.data", "x.data", "2.data"]`: the stem `x` is not a
number, `ParseIds` fails and returns the nil slice. -/
theorem ParseIds_error_iff_witness :
    (∃ fn ∈ [utf8 "1.data", utf8 "x.data", utf8 "2.data"], isDataFile fn ∧ ¬ IsInt32 (stem fn)) ∧
    (ParseIds [utf8 "1.data", utf8 "x.data", utf8 "2.data"]).2 ≠ none ∧
    (ParseIds [utf8 "1.data", utf8 "x.data", utf8 "2.data"]).1 = [] :=
  ⟨by decide,
    (ParseIds_error_iff [utf8 "1.data", utf8 "x.data", utf8 "2.data"]).1.mpr (by decide),
    (ParseIds_error_iff [utf8 "1.data", utf8 "x.data", utf8 "2.data"]).2 (by decide)⟩

/-- C9: every ID that `ParseIds` returns lies in `[-2^31, 2^31 - 1]`, as does
the value of every `.data` stem of a list on which it succeeds;
`2147483648.data` makes it fail and `-1.data` yields the ID `-1`. -/
theorem ParseIds_int32 (fns : List GoString) (ids : List Int)
    (h : ParseIds fns = (ids, none)) :
    (∀ id ∈ ids, -(2 : Int) ^ 31 ≤ id ∧ id ≤ 2 ^ 31 - 1) ∧
    (∀ fn ∈ fns, isDataFile fn →
      -(2 : Int) ^ 31 ≤ intValue (stem fn) ∧ intValue (stem fn) ≤ 2 ^ 31 - 1) ∧
    (ParseIds [utf8 "2147483648.data"]).2 ≠ none ∧
    ParseIds [utf8 "2147483647.data"] = ([2147483647], none) ∧
    ParseIds [utf8 "-1.data"] = ([-1], none) := by
  obtain ⟨hall, hids⟩ := ParseIds_success fns ids h
  have hstems : ∀ fn ∈ fns, isDataFile fn →
      -(2 : Int) ^ 31 ≤ intValue (stem fn) ∧ intValue (stem fn) ≤ 2 ^ 31 - 1 :=
    fun fn hfn hd => (hall fn hfn hd).2.2
  refine ⟨?_, hstems, by decide, by decide, by decide⟩
  intro id hid
  rw [hids] at hid
  have hmem : id ∈ (dataFiles fns).map segmentId := (sortInts_perm _).mem_iff.mp hid
  obtain ⟨fn, hfn, rfl⟩ := List.mem_map.mp hmem
  have hfn' := List.mem_filter.mp hfn
  exact hstems fn hfn'.1 (by simpa using hfn'.2)

/-- Witness of C9 on `["-2147483648.data", "2147483647.data"]`. -/
theorem ParseIds_int32_witness :
    ParseIds [utf8 "-2147483648.data", utf8 "2147483647.data"] =
      ([-2147483648, 2147483647], none) ∧
    (∀ id ∈ ([-2147483648, 2147483647] : List Int), -(2 : Int) ^ 31 ≤ id ∧ id ≤ 2 ^ 31 - 1) :=
  ⟨by decide,
    (ParseIds_int32 [utf8 "-2147483648.data", utf8 "2147483647.data"]
      [-2147483648, 2147483647] (by decide)).1⟩

/-- C6, as the code has it: whenever `ParseIds` succeeds on names whose
stems encode pairwise distinct integers, the returned IDs are strictly
increasing and none appears twice; this is the case for pairwise distinct
base names with the `.data` extension whose stems are canonical numerals
(written as their value is formatted: no plus sign, no leading zeros). -/
theorem ParseIds_strictly_increasing (fns : List GoString) (ids : List Int)
    (h : ParseIds fns = (ids, none)) :
    (((dataFiles fns).map segmentId).Nodup →
      List.Sorted (fun a b => a < b) ids ∧ ids.Nodup) ∧
    (((dataFiles fns).map Base).Nodup → (∀ fn ∈ dataFiles fns, isCanonical (stem fn)) →
      List.Sorted (fun a b => a < b) ids ∧ ids.Nodup) := by
  have hids := (ParseIds_success fns ids h).2
  have h1 : ((dataFiles fns).map segmentId).Nodup →
      List.Sorted (fun a b => a < b) ids ∧ ids.Nodup := by
    intro hn
    rw [hids]
    exact sortInts_strict _ hn
  refine ⟨h1, ?_⟩
  intro hn hc
  apply h1
  have hdata : ∀ fn ∈ dataFiles fns, isDataFile fn := by
    intro fn hfn
    simpa using (List.mem_filter.mp hfn).2
  rw [List.nodup_map_iff_inj_on (List.Nodup.of_map _ hn)]
  intro a ha b hb hab
  have hbase := segmentId_inj_of_canonical a b (hdata a ha) (hdata b hb) (hc a ha) (hc b hb) hab
  exact List.inj_on_of_nodup_map hn ha hb hbase

/-- Witness of C6 on `["10.data", "-3.data", "2.data"]`. -/
theorem ParseIds_strictly_increasing_witness :
    ParseIds [utf8 "10.data", utf8 "-3.data", utf8 "2.data"] = ([-3, 2, 10], none) ∧
    ((dataFiles [utf8 "10.data", utf8 "-3.data", utf8 "2.data"]).map Base).Nodup ∧
    (∀ fn ∈ dataFiles [utf8 "10.data", utf8 "-3.data", utf8 "2.data"], isCanonical (stem fn)) ∧
    List.Sorted (fun a b => a < b) ([-3, 2, 10] : List Int) :=
  ⟨by decide, by decide, by decide,
    ((ParseIds_strictly_increasing [utf8 "10.data", utf8 "-3.data", utf8 "2.data"] [-3, 2, 10]
      (by decide)).2 (by decide) (by decide)).1⟩

/-- C6 fails as stated: `1.data` and `01.data` are distinct base names with
the `.data` extension, `ParseIds` succeeds on them and returns `[1, 1]`, which
is not strictly increasing and repeats an ID. -/
theorem ParseIds_repeats_id :
    ([utf8 "1.data", utf8 "01.data"].map Base).Nodup ∧
    (∀ fn ∈ [utf8 "1.data", utf8 "01.data"], isDataFile fn) ∧
    ParseIds [utf8 "1.data", utf8 "01.data"] = ([1, 1], none) ∧
    ¬ List.Sorted (fun a b => a < b) ([1, 1] : List Int) ∧
    ¬ ([1, 1] : List Int).Nodup := by
  refine ⟨by decide, by decide, by decide, by decide, by decide⟩

/-- C4: for paths in one directory (one common directory part `pre`, empty
for bare names) whose base names are `w` decimal digits followed by `.data`,
with one width `1 ≤ w ≤ 9`, `ParseIds` succeeds on the list sorted as strings
(what `GetDatafiles` returns) and returns the IDs parsed from its names,
element by element, without reordering. Bare names `n.data` and names
`dir/n.data` have the base name `n.data`. -/
theorem ParseIds_fixed_width (pre : GoString) (w : Nat) (paths : List GoString)
    (hw : 1 ≤ w ∧ w ≤ 9)
    (hp : ∀ p ∈ paths, ∃ n : GoString, n.length = w ∧ (∀ c ∈ n, isDigit c) ∧
      p = pre ++ n ++ utf8 ".data" ∧ Base p = n ++ utf8 ".data") :
    ParseIds (GetDatafiles (paths, none)).1 =
      ((GetDatafiles (paths, none)).1.map (fun p => (ParseInt (stem p) 32).1), none) ∧
    (GetDatafiles (paths, none)).2 = none ∧
    (∀ n : GoString, (∀ c ∈ n, isDigit c) →
      Base (n ++ utf8 ".data") = n ++ utf8 ".data" ∧
      ∀ dir : GoString, Base (dir ++ utf8 "/" ++ n ++ utf8 ".data") = n ++ utf8 ".data") := by
  refine ⟨?_, rfl, fun n hn => ⟨Base_bare_name n hn, fun dir => ?_⟩⟩
  · obtain ⟨hpaths, hnames⟩ := paths_eq_map_segmentPath pre w paths hp
    have hS : (GetDatafiles (paths, none)).1 =
        ((paths.map stem).insertionSort valueLe).map (segmentPath pre) := by
      have := sortStrings_segmentPath pre w (paths.map stem)
        (fun n hmem => ⟨(hnames n hmem).1, (hnames n hmem).2.1⟩)
      rw [← hpaths] at this
      exact this
    have ht : ∀ n ∈ (paths.map stem).insertionSort valueLe, n ≠ [] ∧ n.length ≤ 9 ∧
        (∀ c ∈ n, isDigit c) ∧ Base (segmentPath pre n) = n ++ dataExt := by
      intro n hmem
      obtain ⟨h1, h2, h3⟩ := hnames n ((List.mem_insertionSort valueLe).mp hmem)
      refine ⟨?_, by omega, h2, h3⟩
      intro hnil
      rw [hnil] at h1
      simp at h1
      omega
    rw [hS, ParseIds_map_segmentPath pre _ ht (List.sorted_insertionSort valueLe _),
      List.map_map]
    congr 1
    apply List.map_congr_left
    intro n hmem
    obtain ⟨h1, h2, h3, h4⟩ := ht n hmem
    simp [(ParseInt_segmentPath pre n h1 h2 h3 h4).1]
  · have := Base_dir_segment dir n hn
    rw [← List.append_assoc] at this
    exact this

/-- Witness of C4 on the bare names `010.data`, `002.data`, `100.data` (the
directory `.`) and on the same names under `db/`. -/
theorem ParseIds_fixed_width_witness :
    (GetDatafiles ([utf8 "010.data", utf8 "002.data", utf8 "100.data"], none)).1 =
      [utf8 "002.data", utf8 "010.data", utf8 "100.data"] ∧
    ParseIds [utf8 "002.data", utf8 "010.data", utf8 "100.data"] = ([2, 10, 100], none) ∧
    ParseIds (GetDatafiles ([utf8 "010.data", utf8 "002.data", utf8 "100.data"], none)).1 =
      ((GetDatafiles ([utf8 "010.data", utf8 "002.data", utf8 "100.data"], none)).1.map
        (fun p => (ParseInt (stem p) 32).1), none) ∧
    ParseIds (GetDatafiles ([utf8 "db/010.data", utf8 "db/002.data", utf8 "db/100.data"],
      none)).1 =
      ((GetDatafiles ([utf8 "db/010.data", utf8 "db/002.data", utf8 "db/100.data"],
        none)).1.map (fun p => (ParseInt (stem p) 32).1), none) :=
  ⟨by decide, by decide,
    (ParseIds_fixed_width [] 3 [utf8 "010.data", utf8 "002.data", utf8 "100.data"]
      (by decide)
      (by
        intro p hmem
        simp only [List.mem_cons, List.mem_singleton, List.not_mem_nil, or_false] at hmem
        rcases hmem with rfl | rfl | rfl
        · exact ⟨utf8 "010", by decide, by decide, by decide, by decide⟩
        · exact ⟨utf8 "002", by decide, by decide, by decide, by decide⟩
        · exact ⟨utf8 "100", by decide, by decide, by decide, by decide⟩)).1,
    (ParseIds_fixed_width (utf8 "db/") 3
      [utf8 "db/010.data", utf8 "db/002.data", utf8 "db/100.data"]
      (by decide)
      (by
        intro p hmem
        simp only [List.mem_cons, List.mem_singleton, List.not_mem_nil, or_false] at hmem
        rcases hmem with rfl | rfl | rfl
        · exact ⟨utf8 "010", by decide, by decide, by decide, by decide⟩
        · exact ⟨utf8 "002", by decide, by decide, by decide, by decide⟩
        · exact ⟨utf8 "100", by decide, by decide, by decide, by decide⟩)).1⟩

/-! ## Theorems on `DirSize` -/

/-- C7, as the code has it: a walk without error gives no error and the sum
of the sizes of all entries that are not directories, whatever their names,
reduced to `int64`; the size is exactly that sum whenever the sum fits in
`int64`. -/
theorem DirSize_sum_of_files (tree : List WalkCall) (h : ∀ v ∈ tree, v.err = none) :
    DirSize tree = (wrapInt64 (fileSizeSum tree), none) ∧
    (-(2 : Int) ^ 63 ≤ fileSizeSum tree → fileSizeSum tree < 2 ^ 63 →
      DirSize tree = (fileSizeSum tree, none)) := by
  have h1 : DirSize tree = (wrapInt64 (fileSizeSum tree), none) := by
    have := Walk_no_error tree 0 h
    rw [zero_add] at this
    rw [← this]
    rfl
  refine ⟨h1, ?_⟩
  intro hlo hhi
  rw [h1, wrapInt64_of_range _ hlo hhi]

/-- Witness of C7 on a directory holding `0.data` (10 bytes) and `lock`
(3 bytes). -/
theorem DirSize_sum_of_files_witness :
    DirSize [⟨⟨utf8 "db", true, 4096⟩, none⟩, ⟨⟨utf8 "0.data", false, 10⟩, none⟩,
      ⟨⟨utf8 "lock", false, 3⟩, none⟩] = (wrapInt64 13, none) :=
  (DirSize_sum_of_files [⟨⟨utf8 "db", true, 4096⟩, none⟩, ⟨⟨utf8 "0.data", false, 10⟩, none⟩,
      ⟨⟨utf8 "lock", false, 3⟩, none⟩] (by decide)).1

/-- C7 fails as stated: a directory holding the segment `0.data` (10 bytes)
and a file `lock` (3 bytes) is walked without error and `DirSize` returns 13,
while its segment files add up to 10. -/
theorem DirSize_counts_every_file :
    (∀ v ∈ [(⟨⟨utf8 "db", true, 4096⟩, none⟩ : WalkCall), ⟨⟨utf8 "0.data", false, 10⟩, none⟩,
      ⟨⟨utf8 "lock", false, 3⟩, none⟩], v.err = none) ∧
    DirSize [⟨⟨utf8 "db", true, 4096⟩, none⟩, ⟨⟨utf8 "0.data", false, 10⟩, none⟩,
      ⟨⟨utf8 "lock", false, 3⟩, none⟩] = (13, none) ∧
    segmentSizeSum [⟨⟨utf8 "db", true, 4096⟩, none⟩, ⟨⟨utf8 "0.data", false, 10⟩, none⟩,
      ⟨⟨utf8 "lock", false, 3⟩, none⟩] = 10 := by
  refine ⟨by decide, by decide, by decide⟩

/-! ## Theorems on the command handler -/

/-- C10: a `set` with an argument count other than 3, or a `get`, `exists` or
`del` with an argument count other than 2, writes the error reply
`ERR wrong number of arguments for '<name>' command`, calls no engine
operation and leaves the store as it was; with the right count the handler
makes exactly one call, of the matching operation on the given key (and
value), followed by one reply. -/
theorem handler_arity {σ : Type} (toLower : GoString → GoString) (E : Engine σ) (db : σ)
    (arg0 : GoString) (rest : List GoString) :
    (((toLower arg0 = utf8 "set" ∧ (arg0 :: rest).length ≠ 3) ∨
      ((toLower arg0 = utf8 "get" ∨ toLower arg0 = utf8 "exists" ∨ toLower arg0 = utf8 "del") ∧
        (arg0 :: rest).length ≠ 2)) →
      handler toLower E db (arg0 :: rest) =
        some (db, [Event.WriteError
          (utf8 "ERR wrong number of arguments for '" ++ arg0 ++ utf8 "' command")])) ∧
    (∀ key value, toLower arg0 = utf8 "set" → rest = [key, value] →
      ∃ reply, reply.isEngineCall = false ∧ handler toLower E db (arg0 :: rest) =
        some ((E.Put db key value).1, [Event.Put key value, reply])) ∧
    (∀ key, toLower arg0 = utf8 "get" → rest = [key] →
      ∃ reply, reply.isEngineCall = false ∧ handler toLower E db (arg0 :: rest) =
        some ((E.Get db key).1, [Event.Get key, reply])) ∧
    (∀ key, toLower arg0 = utf8 "exists" → rest = [key] →
      ∃ reply, reply.isEngineCall = false ∧ handler toLower E db (arg0 :: rest) =
        some ((E.Has db key).1, [Event.Has key, reply])) ∧
    (∀ key, toLower arg0 = utf8 "del" → rest = [key] →
      ∃ reply, reply.isEngineCall = false ∧ handler toLower E db (arg0 :: rest) =
        some ((E.Delete db key).1, [Event.Delete key, reply])) := by
  have n1 : utf8 "set" ≠ utf8 "ping" := by decide
  have n2 : utf8 "set" ≠ utf8 "quit" := by decide
  have n3 : utf8 "get" ≠ utf8 "ping" := by decide
  have n4 : utf8 "get" ≠ utf8 "quit" := by decide
  have n5 : utf8 "get" ≠ utf8 "set" := by decide
  have n6 : utf8 "exists" ≠ utf8 "ping" := by decide
  have n7 : utf8 "exists" ≠ utf8 "quit" := by decide
  have n8 : utf8 "exists" ≠ utf8 "set" := by decide
  have n9 : utf8 "exists" ≠ utf8 "get" := by decide
  have n10 : utf8 "exists" ≠ utf8 "keys" := by decide
  have n11 : utf8 "del" ≠ utf8 "ping" := by decide
  have n12 : utf8 "del" ≠ utf8 "quit" := by decide
  have n13 : utf8 "del" ≠ utf8 "set" := by decide
  have n14 : utf8 "del" ≠ utf8 "get" := by decide
  have n15 : utf8 "del" ≠ utf8 "keys" := by decide
  have n16 : utf8 "del" ≠ utf8 "exists" := by decide
  refine ⟨?_, ?_, ?_, ?_, ?_⟩
  · rintro (⟨hname, hlen⟩ | ⟨hname | hname | hname, hlen⟩)
    · rcases rest with _ | ⟨a, _ | ⟨b, _ | ⟨c, r⟩⟩⟩ <;>
        simp [handler, hname, n1, n2, wrongArgs] at hlen ⊢
    · rcases rest with _ | ⟨a, _ | ⟨b, r⟩⟩ <;>
        simp [handler, hname, n3, n4, n5, wrongArgs] at hlen ⊢
    · rcases rest with _ | ⟨a, _ | ⟨b, r⟩⟩ <;>
        simp [handler, hname, n6, n7, n8, n9, n10, wrongArgs] at hlen ⊢
    · rcases rest with _ | ⟨a, _ | ⟨b, r⟩⟩ <;>
        simp [handler, hname, n11, n12, n13, n14, n15, n16, wrongArgs] at hlen ⊢
  · intro key value hname hrest
    subst hrest
    rcases hp : E.Put db key value with ⟨db1, _ | err⟩
    · exact ⟨Event.WriteString (utf8 "OK"), rfl, by simp [handler, hname, n1, n2, hp]⟩
    · exact ⟨Event.WriteString (utf8 "ERR: " ++ err.msg), rfl,
        by simp [handler, hname, n1, n2, hp]⟩
  · intro key hname hrest
    subst hrest
    rcases hp : E.Get db key with ⟨db1, value, _ | err⟩
    · exact ⟨Event.WriteBulk value, rfl, by simp [handler, hname, n3, n4, n5, hp]⟩
    · exact ⟨Event.WriteNull, rfl, by simp [handler, hname, n3, n4, n5, hp]⟩
  · intro key hname hrest
    subst hrest
    rcases hp : E.Has db key with ⟨db1, _ | _⟩
    · exact ⟨Event.WriteInt 0, rfl, by simp [handler, hname, n6, n7, n8, n9, n10, hp]⟩
    · exact ⟨Event.WriteInt 1, rfl, by simp [handler, hname, n6, n7, n8, n9, n10, hp]⟩
  · intro key hname hrest
    subst hrest
    rcases hp : E.Delete db key with ⟨db1, _ | err⟩
    · exact ⟨Event.WriteInt 1, rfl,
        by simp [handler, hname, n11, n12, n13, n14, n15, n16, hp]⟩
    · exact ⟨Event.WriteInt 0, rfl,
        by simp [handler, hname, n11, n12, n13, n14, n15, n16, hp]⟩

/-- Witness of C10: `SET k` (two arguments) on a store holding one pair gets
the error reply and leaves the store as it was. -/
theorem handler_arity_witness :
    handler asciiLower listEngine [(utf8 "a", utf8 "1")] [utf8 "SET", utf8 "k"] =
      some ([(utf8 "a", utf8 "1")], [Event.WriteError
        (utf8 "ERR wrong number of arguments for '" ++ utf8 "SET" ++ utf8 "' command")]) :=
  (handler_arity asciiLower listEngine [(utf8 "a", utf8 "1")] (utf8 "SET") [utf8 "k"]).1
    (Or.inl ⟨by decide, by decide⟩)

end Bitcask
